import Mathlib

/-!
Verification of the molpal `Acquirer` (src/molpal/acquirer/acquirer.py).

Machine floats are idealized as exact rationals; utility scores live in
`Util := WithBot (WithTop ℚ)` so that the IEEE infinities used by the code
(`np.inf`, `-np.inf`) are `⊤` and `⊥`.  Python's `heapq` bounded-heap idiom
(`heappush` below capacity, `heappushpop` at capacity) is modelled on lists:
`heappushpop` inserts the new entry and then evicts one minimal entry under
the lexicographic tuple order Python uses on `(utility, item)` pairs.
External collaborators (the RNG, the clustering backend) enter as explicit
oracle parameters.
-/

namespace Molpal

/-- Utility scores: IEEE doubles idealized as `ℚ` extended with `⊥ = -inf` and `⊤ = +inf`. -/
abbrev Util := WithBot (WithTop ℚ)

/-- Lexicographic strict comparison on `(utility, item)` heap entries, mirroring
Python tuple comparison used by `heapq`. -/
def entryLt {α : Type} [LinearOrder α] (a b : Util × α) : Bool :=
  decide (a.1 < b.1) || (decide (a.1 = b.1) && decide (a.2 < b.2))

/-- The minimal entry of `m :: l` under `entryLt` (the entry at `heap[0]`). -/
def minAcc {α : Type} [LinearOrder α] (m : Util × α) (l : List (Util × α)) : Util × α :=
  l.foldl (fun m e => if entryLt e m then e else m) m

/-- Remove one minimal entry from a heap, as `heappushpop` does after inserting;
the empty list is returned unchanged. -/
def removeMin {α : Type} [LinearOrder α] : List (Util × α) → List (Util × α)
  | [] => []
  | e :: l => (e :: l).erase (minAcc e l)

/-- One step of the bounded min-heap idiom from the source: `heappush` when the
heap is below capacity, otherwise `heappushpop` (insert then evict a minimum). -/
def boundedPush {α : Type} [LinearOrder α] (cap : Nat) (heap : List (Util × α))
    (e : Util × α) : List (Util × α) :=
  if heap.length < cap then e :: heap else removeMin (e :: heap)

theorem minAcc_mem {α : Type} [LinearOrder α] (l : List (Util × α)) :
    ∀ m : Util × α, minAcc m l ∈ m :: l := by
  induction l with
  | nil => intro m; simp [minAcc]
  | cons e l ih =>
    intro m
    simp only [minAcc, List.foldl_cons]
    by_cases h : entryLt e m
    · simp only [h, if_true]
      have := ih e
      simp only [minAcc] at this
      rcases (List.mem_cons).1 this with h1 | h1
      · exact (List.mem_cons).2 (Or.inr ((List.mem_cons).2 (Or.inl h1)))
      · exact (List.mem_cons).2 (Or.inr ((List.mem_cons).2 (Or.inr h1)))
    · simp only [h]
      simp only [Bool.false_eq_true, if_false]
      have := ih m
      simp only [minAcc] at this
      rcases (List.mem_cons).1 this with h1 | h1
      · exact (List.mem_cons).2 (Or.inl h1)
      · exact (List.mem_cons).2 (Or.inr ((List.mem_cons).2 (Or.inr h1)))

theorem removeMin_length {α : Type} [LinearOrder α] (e : Util × α) (l : List (Util × α)) :
    (removeMin (e :: l)).length = l.length := by
  have hm : minAcc e l ∈ e :: l := minAcc_mem l e
  simp only [removeMin]
  rw [List.length_erase_of_mem hm]
  simp

theorem removeMin_subset {α : Type} [LinearOrder α] (l : List (Util × α)) :
    ∀ x ∈ removeMin l, x ∈ l := by
  cases l with
  | nil => intro x hx; simp [removeMin] at hx
  | cons e l => intro x hx; exact List.mem_of_mem_erase hx

theorem boundedPush_length {α : Type} [LinearOrder α] (cap : Nat)
    (heap : List (Util × α)) (e : Util × α) (h : heap.length ≤ cap) :
    (boundedPush cap heap e).length = min (heap.length + 1) cap := by
  by_cases hlt : heap.length < cap
  · simp only [boundedPush, hlt, if_true, List.length_cons]
    omega
  · simp only [boundedPush, hlt, if_false]
    rw [removeMin_length]
    omega

theorem boundedPush_subset {α : Type} [LinearOrder α] (cap : Nat)
    (heap : List (Util × α)) (e : Util × α) :
    ∀ x ∈ boundedPush cap heap e, x ∈ e :: heap := by
  intro x hx
  by_cases hlt : heap.length < cap
  · simpa [boundedPush, hlt] using hx
  · simp only [boundedPush, hlt, if_false] at hx
    exact removeMin_subset _ x hx

/-- `Acquirer.top_k`: stream the `(item, utility)` pairs through a bounded min-heap
of capacity `batch_size`, skipping any item already in `explored`. -/
def top_k {α : Type} [LinearOrder α] (xs : List α) (U : List Util) (batch_size : Nat)
    (explored : List α) : List (Util × α) :=
  (xs.zip U).foldl
    (fun heap p => if p.1 ∈ explored then heap else boundedPush batch_size heap (p.2, p.1))
    []

theorem topk_foldl_invariant {α : Type} [LinearOrder α] (explored : List α) (cap : Nat)
    (P : Util × α → Prop) :
    ∀ (l : List (α × Util)) (init : List (Util × α)),
      (∀ e ∈ init, P e) → (∀ p ∈ l, p.1 ∉ explored → P (p.2, p.1)) →
      ∀ e ∈ l.foldl
        (fun heap p => if p.1 ∈ explored then heap else boundedPush cap heap (p.2, p.1)) init,
        P e := by
  intro l
  induction l with
  | nil => intro init h0 _ e he; exact h0 e he
  | cons p l ih =>
    intro init h0 hl e he
    simp only [List.foldl_cons] at he
    by_cases hp : p.1 ∈ explored
    · simp only [hp, if_true] at he
      exact ih init h0 (fun q hq => hl q (List.mem_cons_of_mem _ hq)) e he
    · simp only [hp, if_false] at he
      refine ih (boundedPush cap init (p.2, p.1)) ?_
        (fun q hq => hl q (List.mem_cons_of_mem _ hq)) e he
      intro x hx
      rcases (List.mem_cons).1 (boundedPush_subset cap init (p.2, p.1) x hx) with h1 | h1
      · subst h1; exact hl p (List.mem_cons_self _ _) hp
      · exact h0 x h1

theorem topk_foldl_length {α : Type} [LinearOrder α] (explored : List α) (cap : Nat) :
    ∀ (l : List (α × Util)) (init : List (Util × α)), init.length ≤ cap →
      (l.foldl
        (fun heap p => if p.1 ∈ explored then heap else boundedPush cap heap (p.2, p.1))
        init).length =
      min (init.length + (l.filter (fun p => decide (p.1 ∉ explored))).length) cap := by
  intro l
  induction l with
  | nil => intro init h; simp; omega
  | cons p l ih =>
    intro init h
    simp only [List.foldl_cons]
    by_cases hp : p.1 ∈ explored
    · simp only [hp, if_true]
      rw [ih init h]
      simp [List.filter_cons, hp]
    · simp only [hp, if_false]
      have hlen := boundedPush_length cap init (p.2, p.1) h
      have hle : (boundedPush cap init (p.2, p.1)).length ≤ cap := by omega
      rw [ih _ hle, hlen]
      simp [List.filter_cons, hp]
      omega

theorem zip_filter_fst_length {α : Type} [DecidableEq α] (explored : List α) :
    ∀ (xs : List α) (U : List Util), xs.length = U.length →
      ((xs.zip U).filter (fun p => decide (p.1 ∉ explored))).length =
        (xs.filter (fun x => decide (x ∉ explored))).length := by
  intro xs
  induction xs with
  | nil => intro U _; simp
  | cons x xs ih =>
    intro U hlen
    cases U with
    | nil => simp at hlen
    | cons u U =>
      simp only [List.zip_cons_cons, List.filter_cons]
      by_cases hx : x ∈ explored
      · rw [if_neg (by simp [hx]), if_neg (by simp [hx])]
        exact ih U (by simpa using hlen)
      · rw [if_pos (by simp [hx]), if_pos (by simp [hx])]
        simp only [List.length_cons]
        rw [ih U (by simpa using hlen)]

theorem filter_not_mem_length_eq_card {α : Type} [DecidableEq α] (xs explored : List α)
    (hnd : xs.Nodup) :
    (xs.filter (fun x => decide (x ∉ explored))).length =
      (xs.toFinset \ explored.toFinset).card := by
  have h1 : (xs.filter (fun x => decide (x ∉ explored))).Nodup := hnd.filter _
  have h2 : (xs.filter (fun x => decide (x ∉ explored))).toFinset =
      xs.toFinset \ explored.toFinset := by
    ext a
    simp only [List.mem_toFinset, List.mem_filter, Finset.mem_sdiff, decide_eq_true_eq]
  rw [← h2, List.toFinset_card_of_nodup h1]

/-- C1: unclustered top-k selection (`Acquirer.top_k`, the `cluster_type=None` path of
`acquire_batch`) returns no item that is a key of the explored mapping, and, for a pool
of pairwise-distinct items with utilities aligned index-for-index, returns exactly
`min(batch_size, |pool \ explored|)` items. -/
theorem C1_top_k_spec {α : Type} [LinearOrder α] (xs : List α) (U : List Util)
    (batch_size : Nat) (explored : List α) (hnd : xs.Nodup) (hlen : xs.length = U.length) :
    (∀ e ∈ top_k xs U batch_size explored, e.2 ∉ explored) ∧
    (top_k xs U batch_size explored).length =
      min batch_size (xs.toFinset \ explored.toFinset).card := by
  constructor
  · intro e he
    have := topk_foldl_invariant explored batch_size (fun e => e.2 ∉ explored)
      (xs.zip U) [] (by simp) (by intro p _ hp; exact hp) e he
    exact this
  · have h := topk_foldl_length explored batch_size (xs.zip U) [] (Nat.zero_le _)
    simp only [List.length_nil, Nat.zero_add] at h
    rw [top_k, h, zip_filter_fst_length explored xs U hlen,
      filter_not_mem_length_eq_card xs explored hnd, Nat.min_comm]

theorem C1_top_k_spec_witness :
    (∀ e ∈ top_k ([0, 1, 2] : List ℕ) [⊥, ⊥, ⊥] 2 [1], e.2 ∉ ([1] : List ℕ)) ∧
    (top_k ([0, 1, 2] : List ℕ) [⊥, ⊥, ⊥] 2 [1]).length =
      min 2 ((([0, 1, 2] : List ℕ).toFinset \ ([1] : List ℕ).toFinset).card) :=
  C1_top_k_spec [0, 1, 2] [⊥, ⊥, ⊥] 2 [1] (by decide) (by decide)

/-- `Acquirer.batch_size`: index into the resolved schedule, with the `IndexError`
handler returning the last entry (`batch_sizes[-1]`); `none` models the unhandled
error on an empty schedule. -/
def batch_size (batch_sizes : List Nat) (t : Nat) : Option Nat :=
  match batch_sizes[t]? with
  | some bs => some bs
  | none => batch_sizes.getLast?

/-- C7: for every non-empty resolved batch-size schedule `S` and every `t : ℕ`,
`batch_size` returns `S[t]` when `t < len(S)` and `S[-1]` when `t ≥ len(S)`,
without raising any error. -/
theorem C7_batch_size_total (S : List Nat) (t : Nat) (hS : S ≠ []) :
    (∀ h : t < S.length, batch_size S t = some (S.get ⟨t, h⟩)) ∧
    (S.length ≤ t → batch_size S t = some (S.getLast hS)) := by
  constructor
  · intro h
    have h1 : S[t]? = some (S.get ⟨t, h⟩) := by
      rw [List.getElem?_eq_getElem h, List.get_eq_getElem]
    simp [batch_size, h1]
  · intro h
    have h1 : S[t]? = none := List.getElem?_eq_none h
    simp [batch_size, h1, List.getLast?_eq_getLast S hS]

theorem C7_batch_size_total_witness :
    (∀ h : 7 < ([3, 5] : List Nat).length,
      batch_size [3, 5] 7 = some (([3, 5] : List Nat).get ⟨7, h⟩)) ∧
    (([3, 5] : List Nat).length ≤ 7 →
      batch_size [3, 5] 7 = some (([3, 5] : List Nat).getLast (by decide))) :=
  C7_batch_size_total [3, 5] 7 (by decide)

/-- `int(batch_size * self.epsilon)`: the number of epsilon-greedy forced indices
(`np.random.choice(..., size=...)`); the product is nonnegative, so Python's
truncating `int` is the floor. -/
def numForced (batch_size : Nat) (epsilon : ℚ) : Nat :=
  (⌊(batch_size : ℚ) * epsilon⌋).toNat

/-- `U[idxs] = np.inf`: force the utility at each chosen index to `+inf`. -/
def applyEpsilon (U : List Util) (idxs : List Nat) : List Util :=
  idxs.foldl (fun U i => U.set i ⊤) U

theorem applyEpsilon_length (U : List Util) (idxs : List Nat) :
    (applyEpsilon U idxs).length = U.length := by
  induction idxs generalizing U with
  | nil => rfl
  | cons i idxs ih => simp [applyEpsilon, List.foldl_cons] at ih ⊢; rw [ih]; simp

theorem applyEpsilon_get_not_mem (idxs : List Nat) (U : List Util) (i : Nat)
    (h : i ∉ idxs) : (applyEpsilon U idxs)[i]? = U[i]? := by
  induction idxs generalizing U with
  | nil => rfl
  | cons j idxs ih =>
    have hij : j ≠ i := fun hc => h (hc ▸ List.mem_cons_self j idxs)
    have hrest : i ∉ idxs := fun hc => h (List.mem_cons_of_mem j hc)
    simp only [applyEpsilon, List.foldl_cons] at ih ⊢
    rw [ih _ hrest, List.getElem?_set_ne hij]

theorem applyEpsilon_get_mem (idxs : List Nat) (U : List Util) (i : Nat)
    (hnd : idxs.Nodup) (hmem : i ∈ idxs) (hlt : i < U.length) :
    (applyEpsilon U idxs)[i]? = some ⊤ := by
  induction idxs generalizing U with
  | nil => simp at hmem
  | cons j idxs ih =>
    simp only [applyEpsilon, List.foldl_cons]
    rcases (List.mem_cons).1 hmem with h1 | h1
    · subst h1
      have hrest : i ∉ idxs := (List.nodup_cons.1 hnd).1
      have hmain := applyEpsilon_get_not_mem idxs (U.set i ⊤) i hrest
      simp only [applyEpsilon] at hmain
      rw [hmain, List.getElem?_set_eq_of_lt _ (by simpa using hlt)]
    · exact ih (U.set j ⊤) (List.nodup_cons.1 hnd).2 h1 (by simpa using hlt)

/-- C2: the epsilon-greedy override (`idxs = np.random.choice(arange(U.size),
replace=False, size=int(batch_size * epsilon)); U[idxs] = np.inf`) forces exactly
`floor(epsilon * batch_size)` distinct indices of the scored set to `+inf` and leaves
every other utility unchanged; for `epsilon = 0` nothing is overridden, and for
`epsilon = 1` the forced-index count is the batch size.  The without-replacement
uniform draw is modelled as an oracle producing `idxs`: a duplicate-free list of
in-range indices of the size the code requests. -/
theorem C2_epsilon_greedy (U : List Util) (idxs : List Nat) (batch_size : Nat)
    (epsilon : ℚ) (hlen : idxs.length = numForced batch_size epsilon)
    (hnd : idxs.Nodup) (hrange : ∀ i ∈ idxs, i < U.length) :
    (applyEpsilon U idxs).length = U.length ∧
    (∀ i ∈ idxs, (applyEpsilon U idxs)[i]? = some ⊤) ∧
    (∀ i, i ∉ idxs → (applyEpsilon U idxs)[i]? = U[i]?) ∧
    idxs.length = (⌊epsilon * (batch_size : ℚ)⌋).toNat ∧
    (epsilon = 0 → applyEpsilon U idxs = U) ∧
    (epsilon = 1 → idxs.length = batch_size) := by
  refine ⟨applyEpsilon_length U idxs,
    fun i hi => applyEpsilon_get_mem idxs U i hnd hi (hrange i hi),
    fun i hi => applyEpsilon_get_not_mem idxs U i hi, ?_, ?_, ?_⟩
  · rw [hlen, numForced, mul_comm]
  · intro h0
    have : idxs = [] := by
      have : idxs.length = 0 := by simp [hlen, numForced, h0]
      exact List.length_eq_zero.1 this
    rw [this]; rfl
  · intro h1
    rw [hlen, numForced, h1, mul_one, Int.floor_natCast, Int.toNat_natCast]

theorem C2_epsilon_greedy_witness :
    (applyEpsilon [⊥] [0]).length = ([⊥] : List Util).length ∧
    (∀ i ∈ ([0] : List Nat), (applyEpsilon [⊥] [0])[i]? = some ⊤) ∧
    (∀ i, i ∉ ([0] : List Nat) → (applyEpsilon [⊥] [0])[i]? = ([⊥] : List Util)[i]?) ∧
    ([0] : List Nat).length = (⌊(1 : ℚ) * ((1 : Nat) : ℚ)⌋).toNat ∧
    ((1 : ℚ) = 0 → applyEpsilon [⊥] [0] = [⊥]) ∧
    ((1 : ℚ) = 1 → ([0] : List Nat).length = 1) :=
  C2_epsilon_greedy [⊥] [0] 1 1 (by norm_num [numForced]) (by decide) (by decide)

/-- A Python/IEEE double as the explored outcomes store them: NaN, one of the two
infinities, or a finite value (idealized as an exact rational). -/
inductive PF : Type where
  | nan : PF
  | pinf : PF
  | ninf : PF
  | val : ℚ → PF
deriving DecidableEq

/-- The largest finite IEEE double, `1.7976931348623157e308 = (2^53 - 1) * 2^971`. -/
def dblMax : ℚ := (2 ^ 53 - 1) * 2 ^ 971

/-- `np.nan_to_num(ys, nan=-np.inf)`: NaN becomes `-inf`; because `posinf` and
`neginf` are left at their numpy defaults, the infinities are replaced by the
largest finite doubles `±DBL_MAX`. -/
def nan_to_num_ninf : PF → PF
  | .nan => .ninf
  | .pinf => .val dblMax
  | .ninf => .val (-dblMax)
  | .val q => .val q

/-- Order embedding of a double into `Util`; NaN is sent to `⊥`, which is exactly
the "treat NaN as negative infinity" reading (and NaN never survives
`nan_to_num_ninf` anyway). -/
def toUtil : PF → Util
  | .nan => ⊥
  | .ninf => ⊥
  | .pinf => ((⊤ : WithTop ℚ) : Util)
  | .val q => ((q : WithTop ℚ) : Util)

instance : DecidableRel (fun a b : Util => b ≤ a) :=
  fun a b => inferInstanceAs (Decidable (b ≤ a))

/-- The `dim == 1` reference-max computation of `acquire_batch`:
`Y = np.nan_to_num(ys, nan=-np.inf); current_max = np.partition(Y, -k)[-k]`, i.e.
the element at ascending sorted position `n - k`; `none` models the `ValueError`
numpy raises when `k` is out of range (and the unused `k = 0` corner). -/
def current_max (ys : List PF) (k : Nat) : Option Util :=
  if 1 ≤ k ∧ k ≤ ys.length then
    ((ys.map (fun y => toUtil (nan_to_num_ninf y))).insertionSort (· ≤ ·))[ys.length - k]?
  else none

/-- Modelled from the spec sentence: "the `k`-th largest value among explored
outcomes treating NaN as negative-infinity" — map NaN to `-inf`, change nothing
else, sort descending and take position `k - 1`. -/
def kthLargestSpec (ys : List PF) (k : Nat) : Option Util :=
  if 1 ≤ k ∧ k ≤ ys.length then
    ((ys.map toUtil).insertionSort (fun a b => b ≤ a))[k - 1]?
  else none

theorem descSort_eq_reverse_ascSort (l : List Util) :
    l.insertionSort (fun a b => b ≤ a) = (l.insertionSort (· ≤ ·)).reverse := by
  haveI hTot : IsTotal Util (fun a b => b ≤ a) := ⟨fun a b => le_total b a⟩
  haveI hTrans : IsTrans Util (fun a b => b ≤ a) := ⟨fun a b c h1 h2 => le_trans h2 h1⟩
  haveI hAnti : IsAntisymm Util (fun a b => b ≤ a) := ⟨fun a b h1 h2 => le_antisymm h2 h1⟩
  have s₁ : List.Sorted (fun a b : Util => b ≤ a) (l.insertionSort (fun a b => b ≤ a)) :=
    List.sorted_insertionSort _ l
  have s₂ : List.Sorted (fun a b : Util => b ≤ a) ((l.insertionSort (· ≤ ·)).reverse) := by
    rw [List.Sorted, List.pairwise_reverse]
    exact List.sorted_insertionSort _ l
  have hp : (l.insertionSort (fun a b => b ≤ a)).Perm ((l.insertionSort (· ≤ ·)).reverse) :=
    (List.perm_insertionSort _ l).trans
      ((List.perm_insertionSort _ l).symm.trans (List.reverse_perm _).symm)
  exact List.eq_of_perm_of_sorted hp s₁ s₂

/-- C3 (amended): for explored outcomes that are finite or NaN, the `dim == 1`
reference max equals the `k`-th largest outcome with NaN treated as `-inf`,
and on `[3.0, NaN, 5.0]` with `k = 1` it is `5.0`.  (The unamended claim fails
for ±inf outcomes, which `np.nan_to_num` replaces by `±DBL_MAX`.) -/
theorem C3_current_max (ys : List PF) (k : Nat) (h1 : 1 ≤ k) (h2 : k ≤ ys.length)
    (hfin : ∀ y ∈ ys, y ≠ PF.pinf ∧ y ≠ PF.ninf) :
    current_max ys k = kthLargestSpec ys k ∧
    current_max [PF.val 3, PF.nan, PF.val 5] 1 = some (((5 : ℚ) : WithTop ℚ) : Util) := by
  constructor
  · have hmap : ys.map (fun y => toUtil (nan_to_num_ninf y)) = ys.map toUtil := by
      refine List.map_congr_left ?_
      intro y hy
      rcases hfin y hy with ⟨hp, hn⟩
      cases y with
      | nan => rfl
      | pinf => exact absurd rfl hp
      | ninf => exact absurd rfl hn
      | val q => rfl
    rw [current_max, kthLargestSpec, if_pos ⟨h1, h2⟩, if_pos ⟨h1, h2⟩, hmap,
      descSort_eq_reverse_ascSort]
    have hlen : ((ys.map toUtil).insertionSort (· ≤ ·)).length = ys.length := by
      rw [(List.perm_insertionSort _ _).length_eq, List.length_map]
    have hk : k - 1 < ((ys.map toUtil).insertionSort (· ≤ ·)).length := by omega
    rw [List.getElem?_reverse hk, hlen]
    congr 1
    omega
  · decide

theorem C3_current_max_witness :
    current_max [PF.val 3, PF.nan, PF.val 5] 1 = kthLargestSpec [PF.val 3, PF.nan, PF.val 5] 1 ∧
    current_max [PF.val 3, PF.nan, PF.val 5] 1 = some (((5 : ℚ) : WithTop ℚ) : Util) :=
  C3_current_max [PF.val 3, PF.nan, PF.val 5] 1 (by decide) (by decide) (by decide)

/-- C3 counterexample: for the explored outcome list `[-inf]` and `k = 1`, the code's
reference max is the finite value `-DBL_MAX` (numpy's `nan_to_num` default for
`neginf`), not the `-inf` the claim's "only NaN is touched" reading yields. -/
theorem C3_current_max_counterexample :
    current_max [PF.ninf] 1 ≠ kthLargestSpec [PF.ninf] 1 := by decide

/-- Total number of entries across a list of clusters. -/
def totalPop {β : Type} (clusters : List (List β)) : Nat :=
  (clusters.map List.length).sum

/-- One pass of the `while len(heap) < batch_size` loop over the cluster cycle:
visit each cluster once in order, popping its best remaining entry when it is
non-empty, and stop visiting once `need` entries have been taken.  Returns the
entries taken (in visit order) together with the updated clusters. -/
def rrCycle {β : Type} (clusters : List (List β)) (need : Nat) :
    List β × List (List β) :=
  match clusters with
  | [] => ([], [])
  | c :: cs =>
    if need = 0 then ([], c :: cs)
    else
      match c with
      | [] =>
        let p := rrCycle cs need
        (p.1, [] :: p.2)
      | e :: rest =>
        let p := rrCycle cs (need - 1)
        (e :: p.1, rest :: p.2)

/-- The round-robin extraction loop of `clustered_batch` (lines 451-459), iterated
pass by pass; `none` models divergence of the Python `while` loop, which never
exits when every cluster empties before the batch is full.  The `fuel` argument
only bounds the recursion: each pass over a not-all-empty cluster list extracts
at least one entry, so `fuel = batch_size` passes always reach the exit condition
whenever the loop terminates at all. -/
def rrLoopAux {β : Type} : Nat → List (List β) → Nat → Option (List β)
  | _, _, 0 => some []
  | 0, _, _ + 1 => none
  | fuel + 1, clusters, need + 1 =>
    if clusters.all List.isEmpty then none
    else
      let p := rrCycle clusters (need + 1)
      match rrLoopAux fuel p.2 (need + 1 - p.1.length) with
      | some rest => some (p.1 ++ rest)
      | none => none

/-- `while len(heap) < batch_size: cid = next(cluster_cycle); ...` -/
def rrExtract {β : Type} (clusters : List (List β)) (batch_size : Nat) :
    Option (List β) :=
  rrLoopAux batch_size clusters batch_size

theorem rrCycle_fst {β : Type} (clusters : List (List β)) :
    ∀ need, (rrCycle clusters need).1 = (clusters.filterMap List.head?).take need := by
  induction clusters with
  | nil => intro need; simp [rrCycle]
  | cons c cs ih =>
    intro need
    cases need with
    | zero => simp [rrCycle]
    | succ n =>
      cases c with
      | nil => simp [rrCycle, ih]
      | cons e rest => simp [rrCycle, ih, List.take_succ_cons]

theorem rrCycle_fst_len_le {β : Type} (clusters : List (List β)) (need : Nat) :
    (rrCycle clusters need).1.length ≤ need := by
  rw [rrCycle_fst]
  simp [List.length_take]

theorem totalPop_eq_zero_of_all_isEmpty {β : Type} (clusters : List (List β))
    (h : clusters.all List.isEmpty = true) : totalPop clusters = 0 := by
  induction clusters with
  | nil => rfl
  | cons c cs ih =>
    simp only [List.all_cons, Bool.and_eq_true] at h
    have hc : c = [] := List.isEmpty_iff.1 h.1
    simp [totalPop, hc, List.map_cons]
    simpa [totalPop] using ih h.2

theorem rrCycle_fst_pos {β : Type} (clusters : List (List β)) (need : Nat)
    (hneed : need ≠ 0) (hne : clusters.all List.isEmpty ≠ true) :
    0 < (rrCycle clusters need).1.length := by
  rw [rrCycle_fst, List.length_take]
  have hex : ∃ c ∈ clusters, c ≠ [] := by
    by_contra hall
    push_neg at hall
    apply hne
    rw [List.all_eq_true]
    intro c hc
    rw [List.isEmpty_iff]
    exact hall c hc
  rcases hex with ⟨c, hc, hcne⟩
  cases c with
  | nil => exact absurd rfl hcne
  | cons e rest =>
    have hmem : e ∈ clusters.filterMap List.head? :=
      List.mem_filterMap.2 ⟨e :: rest, hc, rfl⟩
    have hpos : 0 < (clusters.filterMap List.head?).length :=
      List.length_pos.2 (fun hnil => by simp [hnil] at hmem)
    omega

theorem rrCycle_totalPop {β : Type} (clusters : List (List β)) :
    ∀ need, totalPop (rrCycle clusters need).2 + (rrCycle clusters need).1.length =
      totalPop clusters := by
  induction clusters with
  | nil => intro need; simp [rrCycle, totalPop]
  | cons c cs ih =>
    intro need
    cases need with
    | zero => simp [rrCycle]
    | succ n =>
      cases c with
      | nil =>
        have := ih (n + 1)
        simp only [rrCycle]
        simp only [if_neg (Nat.succ_ne_zero n)]
        simp [totalPop, List.map_cons] at this ⊢
        omega
      | cons e rest =>
        have := ih n
        simp only [rrCycle]
        simp only [if_neg (Nat.succ_ne_zero n)]
        simp [totalPop, List.map_cons] at this ⊢
        omega

theorem rrCycle_fst_mem {β : Type} (clusters : List (List β)) :
    ∀ need, ∀ e ∈ (rrCycle clusters need).1, e ∈ clusters.flatten := by
  induction clusters with
  | nil => intro need e he; simp [rrCycle] at he
  | cons c cs ih =>
    intro need e he
    cases need with
    | zero => simp [rrCycle] at he
    | succ n =>
      cases c with
      | nil =>
        simp only [rrCycle, if_neg (Nat.succ_ne_zero n)] at he
        simpa using ih (n + 1) e he
      | cons a rest =>
        simp only [rrCycle, if_neg (Nat.succ_ne_zero n)] at he
        rcases (List.mem_cons).1 he with h1 | h1
        · subst h1; simp
        · have := ih n e h1
          simp at this ⊢
          tauto

theorem rrCycle_snd_mem {β : Type} (clusters : List (List β)) :
    ∀ need, ∀ e ∈ (rrCycle clusters need).2.flatten, e ∈ clusters.flatten := by
  induction clusters with
  | nil => intro need e he; simp [rrCycle] at he
  | cons c cs ih =>
    intro need e he
    cases need with
    | zero => simpa [rrCycle] using he
    | succ n =>
      cases c with
      | nil =>
        simp only [rrCycle, if_neg (Nat.succ_ne_zero n)] at he
        simp only [List.flatten_cons] at he
        simp only [List.nil_append] at he
        simpa using ih (n + 1) e he
      | cons a rest =>
        simp only [rrCycle, if_neg (Nat.succ_ne_zero n)] at he
        simp only [List.flatten_cons, List.mem_append] at he
        rcases he with h1 | h1
        · simp at h1 ⊢
          tauto
        · have := ih n e h1
          simp at this ⊢
          tauto

theorem rrLoopAux_terminates {β : Type} (fuel : Nat) :
    ∀ (clusters : List (List β)) (need : Nat), need ≤ fuel → need ≤ totalPop clusters →
      ∃ out, rrLoopAux fuel clusters need = some out ∧ out.length = need := by
  induction fuel with
  | zero =>
    intro clusters need h1 _
    have : need = 0 := Nat.le_zero.1 h1
    subst this
    exact ⟨[], rfl, rfl⟩
  | succ fuel ih =>
    intro clusters need h1 h2
    cases need with
    | zero => exact ⟨[], rfl, rfl⟩
    | succ n =>
      have hne : clusters.all List.isEmpty ≠ true := by
        intro hall
        have := totalPop_eq_zero_of_all_isEmpty clusters hall
        omega
      have hpos := rrCycle_fst_pos clusters (n + 1) (Nat.succ_ne_zero n) hne
      have hle := rrCycle_fst_len_le clusters (n + 1)
      have htot := rrCycle_totalPop clusters (n + 1)
      have hrec := ih (rrCycle clusters (n + 1)).2
        (n + 1 - (rrCycle clusters (n + 1)).1.length) (by omega) (by omega)
      rcases hrec with ⟨rest, hrest, hlen⟩
      refine ⟨(rrCycle clusters (n + 1)).1 ++ rest, ?_, ?_⟩
      · simp only [rrLoopAux, if_neg hne]
        rw [hrest]
      · simp only [List.length_append]
        omega

theorem rrLoopAux_prefix {β : Type} (fuel : Nat) (clusters : List (List β)) (need : Nat)
    (out : List β) (h : rrLoopAux fuel clusters need = some out) :
    ∃ rest, out = (clusters.filterMap List.head?).take need ++ rest := by
  cases need with
  | zero =>
    refine ⟨out, ?_⟩
    simp
  | succ n =>
    cases fuel with
    | zero => exact absurd h (by simp [rrLoopAux])
    | succ fuel =>
      by_cases hall : clusters.all List.isEmpty = true
      · exact absurd h (by simp [rrLoopAux, hall])
      · simp only [rrLoopAux, if_neg hall] at h
        rcases hrec : rrLoopAux fuel (rrCycle clusters (n + 1)).2
            (n + 1 - (rrCycle clusters (n + 1)).1.length) with _ | rest
        · rw [hrec] at h; exact absurd h (by simp)
        · rw [hrec] at h
          refine ⟨rest, ?_⟩
          have hout : (rrCycle clusters (n + 1)).1 ++ rest = out := by
            simpa using h
          rw [← hout, rrCycle_fst]

theorem rrLoopAux_mem {β : Type} (fuel : Nat) :
    ∀ (clusters : List (List β)) (need : Nat) (out : List β),
      rrLoopAux fuel clusters need = some out → ∀ e ∈ out, e ∈ clusters.flatten := by
  induction fuel with
  | zero =>
    intro clusters need out h e he
    cases need with
    | zero =>
      have : out = [] := by simpa [rrLoopAux] using h.symm
      simp [this] at he
    | succ n => exact absurd h (by simp [rrLoopAux])
  | succ fuel ih =>
    intro clusters need out h e he
    cases need with
    | zero =>
      have : out = [] := by simpa [rrLoopAux] using h.symm
      simp [this] at he
    | succ n =>
      by_cases hall : clusters.all List.isEmpty = true
      · exact absurd h (by simp [rrLoopAux, hall])
      · simp only [rrLoopAux, if_neg hall] at h
        rcases hrec : rrLoopAux fuel (rrCycle clusters (n + 1)).2
            (n + 1 - (rrCycle clusters (n + 1)).1.length) with _ | rest
        · rw [hrec] at h; exact absurd h (by simp)
        · rw [hrec] at h
          have hout : (rrCycle clusters (n + 1)).1 ++ rest = out := by
            simpa using h
          rw [← hout] at he
          rcases List.mem_append.1 he with h1 | h1
          · exact rrCycle_fst_mem clusters (n + 1) e h1
          · exact rrCycle_snd_mem clusters (n + 1) e (ih _ _ rest hrec e h1)

theorem top_k_not_explored {α : Type} [LinearOrder α] (xs : List α) (U : List Util)
    (cap : Nat) (explored : List α) :
    ∀ e ∈ top_k xs U cap explored, e.2 ∉ explored := by
  intro e he
  exact topk_foldl_invariant explored cap (fun e => e.2 ∉ explored)
    (xs.zip U) [] (by simp) (by intro p _ hp; exact hp) e he

theorem top_k_length {α : Type} [LinearOrder α] (xs : List α) (U : List Util)
    (cap : Nat) (explored : List α) (hnd : xs.Nodup) (hlen : xs.length = U.length) :
    (top_k xs U cap explored).length = min cap (xs.toFinset \ explored.toFinset).card := by
  have h := topk_foldl_length explored cap (xs.zip U) [] (Nat.zero_le _)
  simp only [List.length_nil, Nat.zero_add] at h
  rw [top_k, h, zip_filter_fst_length explored xs U hlen,
    filter_not_mem_length_eq_card xs explored hnd, Nat.min_comm]

/-- `superset = self.top_k(xs, U, self.cluster_superset, explored)` — the clustering
basis computed at the top of `Acquirer.clustered_batch`. -/
def clusteredSuperset {α : Type} [LinearOrder α] (xs : List α) (U : List Util)
    (cluster_superset : Nat) (explored : List α) : List (Util × α) :=
  top_k xs U cluster_superset explored

/-- Python truthiness of an `Optional[str]`: `None` and the empty string are falsy. -/
def truthyStr : Option String → Bool
  | none => false
  | some s => !s.isEmpty

/-- `__init__` lines 96-101: `self.cluster_superset = cluster_superset or
10*self.batch_sizes[0]` when `self.cluster_type` is truthy, else `None`; `x or y`
also yields `y` for the falsy configured value `0`. -/
def resolveClusterSuperset (cluster_type : Option String) (cluster_superset : Option Nat)
    (batch_sizes : List Nat) : Option Nat :=
  if truthyStr cluster_type then
    some (match cluster_superset with
      | some n => if n = 0 then 10 * batch_sizes.headI else n
      | none => 10 * batch_sizes.headI)
  else none

/-- `np.unique(cluster_ids)`: the sorted distinct cluster ids. -/
def uniqueSorted (ids : List Nat) : List Nat :=
  ids.dedup.insertionSort (· ≤ ·)

instance {α : Type} [LinearOrder α] :
    DecidableRel (fun a b : Util × α => b.1 < a.1 ∨ (a.1 = b.1 ∧ a.2 ≤ b.2)) :=
  fun a b => inferInstanceAs (Decidable (b.1 < a.1 ∨ (a.1 = b.1 ∧ a.2 ≤ b.2)))

instance {β : Type} : DecidableRel (fun c₁ c₂ : List β => c₂.length ≤ c₁.length) :=
  fun c₁ c₂ => inferInstanceAs (Decidable (c₂.length ≤ c₁.length))

/-- `clusters = {cid: [] for cid in np.unique(cluster_ids)}` followed by
`heappush(clusters[cid], (-u, x))` (clustered_batch lines 445-447): each cluster,
listed in the order `heappop` will drain its `(-utility, item)` heap — utility
descending, ties by item ascending. -/
def buildClusters {α : Type} [LinearOrder α] (ids : List Nat)
    (entries : List (Util × α)) : List (List (Util × α)) :=
  (uniqueSorted ids).map (fun cid =>
    (((ids.zip entries).filter (fun p => p.1 = cid)).map Prod.snd).insertionSort
      (fun a b => b.1 < a.1 ∨ (a.1 = b.1 ∧ a.2 ≤ b.2)))

/-- `cluster_order = sorted(clusters, key=lambda k: len(clusters[k]), reverse=True)`:
largest clusters first. -/
def sortClustersByLen {β : Type} (clusters : List (List β)) : List (List β) :=
  clusters.insertionSort (fun c₁ c₂ => c₂.length ≤ c₁.length)

/-- `Acquirer.clustered_batch`: superset by plain top-k of capacity
`cluster_superset`, then cluster, order the clusters largest first and round-robin
extract `batch_size` entries.  The composite of the cluster-basis construction
(predicted objectives or the feature matrix) and the external `cluster_fps`
backend is abstracted as `oracle`, giving the cluster id of each superset member. -/
def clustered_batch {α : Type} [LinearOrder α] (oracle : List α → List Nat)
    (xs : List α) (U : List Util) (batch_size : Nat) (cluster_superset : Nat)
    (explored : List α) : Option (List (Util × α)) :=
  let superset := clusteredSuperset xs U cluster_superset explored
  let cluster_ids := oracle (superset.map Prod.snd)
  rrExtract (sortClustersByLen (buildClusters cluster_ids superset)) batch_size

/-- `int(np.ceil(batch_size / 2))` — the objective-space share of a hybrid batch. -/
def halfCeil (batch_size : Nat) : Nat := (⌈(batch_size : ℚ) / 2⌉).toNat

/-- `Acquirer.cluster_both`: objective-space clustered selection first, then
feature-space clustered selection with the first sub-batch (and the explored
mapping) added to the exclusion set, concatenated feature-batch first. -/
def cluster_both {α : Type} [LinearOrder α] (oracle_objs oracle_fps : List α → List Nat)
    (xs : List α) (U : List Util) (batch_size : Nat) (cluster_superset : Nat)
    (explored : List α) : Option (List (Util × α)) :=
  let batch_size_objs := halfCeil batch_size
  let batch_size_fps := batch_size - batch_size_objs
  match clustered_batch oracle_objs xs U batch_size_objs cluster_superset explored with
  | none => none
  | some heap_objs =>
    match clustered_batch oracle_fps xs U batch_size_fps cluster_superset
        (explored ++ heap_objs.map Prod.snd) with
    | none => none
    | some heap_fps => some (heap_fps ++ heap_objs)

theorem buildClusters_flatten_mem {α : Type} [LinearOrder α] (ids : List Nat)
    (entries : List (Util × α)) :
    ∀ e ∈ (buildClusters ids entries).flatten, e ∈ entries := by
  intro e he
  rcases List.mem_flatten.1 he with ⟨c, hc, hec⟩
  rcases List.mem_map.1 hc with ⟨cid, _, hcid⟩
  rw [← hcid] at hec
  have hperm := List.perm_insertionSort
    (fun a b : Util × α => b.1 < a.1 ∨ (a.1 = b.1 ∧ a.2 ≤ b.2))
    (((ids.zip entries).filter (fun p => p.1 = cid)).map Prod.snd)
  have := hperm.mem_iff.1 hec
  rcases List.mem_map.1 this with ⟨p, hp, hpe⟩
  have hpz : p ∈ ids.zip entries := List.mem_of_mem_filter hp
  rcases p with ⟨i, e'⟩
  have hmem := (List.of_mem_zip hpz).2
  have hee : e' = e := hpe
  rwa [hee] at hmem

theorem clustered_batch_mem {α : Type} [LinearOrder α] (oracle : List α → List Nat)
    (xs : List α) (U : List Util) (batch_size cluster_superset : Nat)
    (explored : List α) (out : List (Util × α))
    (h : clustered_batch oracle xs U batch_size cluster_superset explored = some out) :
    ∀ e ∈ out, e ∈ clusteredSuperset xs U cluster_superset explored := by
  intro e he
  have h1 := rrLoopAux_mem batch_size _ _ out h e he
  have hperm : (sortClustersByLen (buildClusters
      (oracle ((clusteredSuperset xs U cluster_superset explored).map Prod.snd))
      (clusteredSuperset xs U cluster_superset explored))).flatten.Perm
      ((buildClusters
      (oracle ((clusteredSuperset xs U cluster_superset explored).map Prod.snd))
      (clusteredSuperset xs U cluster_superset explored))).flatten :=
    (List.perm_insertionSort _ _).flatten
  exact buildClusters_flatten_mem _ _ e (hperm.mem_iff.1 h1)

theorem clustered_batch_not_explored {α : Type} [LinearOrder α]
    (oracle : List α → List Nat) (xs : List α) (U : List Util)
    (batch_size cluster_superset : Nat) (explored : List α) (out : List (Util × α))
    (h : clustered_batch oracle xs U batch_size cluster_superset explored = some out) :
    ∀ e ∈ out, e.2 ∉ explored := by
  intro e he
  exact top_k_not_explored xs U cluster_superset explored e
    (clustered_batch_mem oracle xs U batch_size cluster_superset explored out h e he)

theorem int_ceil_nat_div (a b : Nat) (hb : 0 < b) :
    ⌈(a : ℚ) / (b : ℚ)⌉ = (((a + b - 1) / b : Nat) : ℤ) := by
  have hb' : (0 : ℚ) < (b : ℚ) := by exact_mod_cast hb
  have hdm := Nat.div_add_mod (a + b - 1) b
  have hmlt : (a + b - 1) % b < b := Nat.mod_lt _ hb
  set q := (a + b - 1) / b with hq
  set m := (a + b - 1) % b with hm
  have hkey : b * q + m + 1 = a + b := by omega
  have hm1 : m + 1 ≤ b := by omega
  have hkeyQ : (b : ℚ) * (q : ℚ) + (m : ℚ) + 1 = (a : ℚ) + (b : ℚ) := by exact_mod_cast hkey
  have hm1Q : (m : ℚ) + 1 ≤ (b : ℚ) := by exact_mod_cast hm1
  have hm0Q : (0 : ℚ) ≤ (m : ℚ) := by positivity
  rw [Int.ceil_eq_iff]
  constructor
  · rw [lt_div_iff₀ hb']
    push_cast
    nlinarith [hkeyQ, hm0Q]
  · rw [div_le_iff₀ hb']
    push_cast
    nlinarith [hkeyQ, hm1Q]

theorem halfCeil_eq (batch_size : Nat) : halfCeil batch_size = (batch_size + 1) / 2 := by
  have h2 : ((2 : ℚ)) = ((2 : Nat) : ℚ) := by norm_num
  rw [halfCeil, h2, int_ceil_nat_div batch_size 2 (by norm_num)]
  have h3 : batch_size + 2 - 1 = batch_size + 1 := by omega
  rw [h3, Int.toNat_natCast]

/-- C4 counterexample: with `cluster_superset = 1`, `batch_size = 2`, a 3-item pool
and nothing explored, the clustering superset of `clustered_batch` has
`min(cluster_superset, |pool \ explored|) = 1` element, not the
`min(max(cluster_superset, batch_size), |pool \ explored|) = 2` the claim's size
`max(cluster_superset, batch_size)` predicts: the code passes `self.cluster_superset`
to `top_k` unmodified. -/
theorem C4_superset_counterexample :
    (clusteredSuperset ([0, 1, 2] : List ℕ) [⊥, ⊥, ⊥] 1 []).length ≠
      min (max 1 2) ((([0, 1, 2] : List ℕ).toFinset \ ([] : List ℕ).toFinset).card) := by
  decide

/-- C4 (amended): in clustered batch acquisition the clustering superset is a plain
top-k of size `cluster_superset` — not `max(cluster_superset, batch_size)` — over
the pool excluding explored items, and `cluster_superset` defaults to 10 times the
first batch-size schedule entry when clustering is enabled and no superset size was
configured. -/
theorem C4_superset_spec {α : Type} [LinearOrder α] (xs : List α) (U : List Util)
    (cluster_superset : Nat) (explored : List α) (hnd : xs.Nodup)
    (hlen : xs.length = U.length) (ct : Option String) (bss : List Nat)
    (hct : truthyStr ct = true) :
    clusteredSuperset xs U cluster_superset explored = top_k xs U cluster_superset explored ∧
    (clusteredSuperset xs U cluster_superset explored).length =
      min cluster_superset (xs.toFinset \ explored.toFinset).card ∧
    (∀ e ∈ clusteredSuperset xs U cluster_superset explored, e.2 ∉ explored) ∧
    resolveClusterSuperset ct none bss = some (10 * bss.headI) := by
  refine ⟨rfl, top_k_length xs U cluster_superset explored hnd hlen,
    top_k_not_explored xs U cluster_superset explored, ?_⟩
  simp [resolveClusterSuperset, hct]

theorem C4_superset_spec_witness :
    clusteredSuperset ([0, 1, 2] : List ℕ) [⊥, ⊥, ⊥] 1 [] = top_k [0, 1, 2] [⊥, ⊥, ⊥] 1 [] ∧
    (clusteredSuperset ([0, 1, 2] : List ℕ) [⊥, ⊥, ⊥] 1 []).length =
      min 1 ((([0, 1, 2] : List ℕ).toFinset \ ([] : List ℕ).toFinset).card) ∧
    (∀ e ∈ clusteredSuperset ([0, 1, 2] : List ℕ) [⊥, ⊥, ⊥] 1 [], e.2 ∉ ([] : List ℕ)) ∧
    resolveClusterSuperset (some "objs") none [3] = some (10 * ([3] : List Nat).headI) :=
  C4_superset_spec [0, 1, 2] [⊥, ⊥, ⊥] 1 [] (by decide) (by decide) (some "objs") [3]
    (by decide)

/-- C5: whenever the clusters hold at least `batch_size` entries in total, the
round-robin extraction loop of `clustered_batch` terminates and returns exactly
`batch_size` entries; the clusters are cycled in order of descending population,
and the first pass pops one entry from each non-empty cluster, in that order,
before any cluster is visited a second time (the extracted list starts with the
heads of the non-empty clusters, largest cluster first). -/
theorem C5_round_robin {α : Type} [LinearOrder α] (clusters : List (List (Util × α)))
    (batch_size : Nat) (h : batch_size ≤ totalPop clusters) :
    List.Sorted (fun c₁ c₂ : List (Util × α) => c₂.length ≤ c₁.length)
      (sortClustersByLen clusters) ∧
    ∃ out, rrExtract (sortClustersByLen clusters) batch_size = some out ∧
      out.length = batch_size ∧
      ∃ rest, out = ((sortClustersByLen clusters).filterMap List.head?).take batch_size
        ++ rest := by
  haveI hTot : IsTotal (List (Util × α)) (fun c₁ c₂ => c₂.length ≤ c₁.length) :=
    ⟨fun a b => Nat.le_total b.length a.length⟩
  haveI hTrans : IsTrans (List (Util × α)) (fun c₁ c₂ => c₂.length ≤ c₁.length) :=
    ⟨fun a b c h1 h2 => le_trans h2 h1⟩
  have hpop : totalPop (sortClustersByLen clusters) = totalPop clusters := by
    have hp := (List.perm_insertionSort
      (fun c₁ c₂ : List (Util × α) => c₂.length ≤ c₁.length) clusters).map List.length
    exact hp.sum_eq
  constructor
  · exact List.sorted_insertionSort _ clusters
  · rcases rrLoopAux_terminates batch_size (sortClustersByLen clusters) batch_size
      le_rfl (by omega) with ⟨out, hout, hlen⟩
    exact ⟨out, hout, hlen, rrLoopAux_prefix _ _ _ _ hout⟩

theorem C5_round_robin_witness :
    List.Sorted (fun c₁ c₂ : List (Util × ℕ) => c₂.length ≤ c₁.length)
      (sortClustersByLen ([[(⊥, 0), (⊥, 1), (⊥, 2), (⊥, 3), (⊥, 4)],
        [(⊥, 5), (⊥, 6), (⊥, 7)], [(⊥, 8), (⊥, 9)]] : List (List (Util × ℕ)))) ∧
    ∃ out, rrExtract (sortClustersByLen ([[(⊥, 0), (⊥, 1), (⊥, 2), (⊥, 3), (⊥, 4)],
        [(⊥, 5), (⊥, 6), (⊥, 7)], [(⊥, 8), (⊥, 9)]] : List (List (Util × ℕ)))) 6
        = some out ∧
      out.length = 6 ∧
      ∃ rest, out = ((sortClustersByLen ([[(⊥, 0), (⊥, 1), (⊥, 2), (⊥, 3), (⊥, 4)],
        [(⊥, 5), (⊥, 6), (⊥, 7)], [(⊥, 8), (⊥, 9)]] :
          List (List (Util × ℕ)))).filterMap List.head?).take 6 ++ rest :=
  C5_round_robin ([[(⊥, 0), (⊥, 1), (⊥, 2), (⊥, 3), (⊥, 4)],
    [(⊥, 5), (⊥, 6), (⊥, 7)], [(⊥, 8), (⊥, 9)]] : List (List (Util × ℕ))) 6 (by decide)

/-- C6: hybrid (`cluster_type='both'`) selection gives the objective-space sub-call
capacity `ceil(batch_size/2)` and the feature-space sub-call the remainder, and the
two sub-batches are disjoint: no feature-space selection is an objective-space
selection or an explored item, because the objective-space picks are merged into
the exclusion set of the second sub-call. -/
theorem C6_cluster_both {α : Type} [LinearOrder α]
    (oracle_objs oracle_fps : List α → List Nat) (xs : List α) (U : List Util)
    (batch_size cluster_superset : Nat) (explored : List α) (result : List (Util × α))
    (h : cluster_both oracle_objs oracle_fps xs U batch_size cluster_superset explored
      = some result) :
    ∃ heap_objs heap_fps,
      clustered_batch oracle_objs xs U (halfCeil batch_size) cluster_superset explored
        = some heap_objs ∧
      clustered_batch oracle_fps xs U (batch_size - halfCeil batch_size) cluster_superset
        (explored ++ heap_objs.map Prod.snd) = some heap_fps ∧
      result = heap_fps ++ heap_objs ∧
      halfCeil batch_size = (batch_size + 1) / 2 ∧
      (∀ e ∈ heap_fps, e.2 ∉ heap_objs.map Prod.snd ∧ e.2 ∉ explored) := by
  simp only [cluster_both] at h
  split at h
  · exact absurd h (by simp)
  case _ heap_objs heq1 =>
    split at h
    · exact absurd h (by simp)
    case _ heap_fps heq2 =>
      simp only [Option.some.injEq] at h
      refine ⟨heap_objs, heap_fps, heq1, heq2, h.symm, halfCeil_eq batch_size, ?_⟩
      intro e he
      have hne := clustered_batch_not_explored oracle_fps xs U
        (batch_size - halfCeil batch_size) cluster_superset
        (explored ++ heap_objs.map Prod.snd) heap_fps heq2 e he
      rw [List.mem_append] at hne
      push_neg at hne
      exact ⟨hne.2, hne.1⟩

theorem C6_cluster_both_witness :
    ∃ heap_objs heap_fps,
      clustered_batch (fun l => l.map (fun _ => 0)) ([0, 1, 2, 3] : List ℕ)
        [⊥, ⊥, ⊥, ⊥] (halfCeil 2) 4 [] = some heap_objs ∧
      clustered_batch (fun l => l.map (fun _ => 0)) ([0, 1, 2, 3] : List ℕ)
        [⊥, ⊥, ⊥, ⊥] (2 - halfCeil 2) 4 ([] ++ heap_objs.map Prod.snd) = some heap_fps ∧
      ([(⊥, 1), (⊥, 0)] : List (Util × ℕ)) = heap_fps ++ heap_objs ∧
      halfCeil 2 = (2 + 1) / 2 ∧
      (∀ e ∈ heap_fps, e.2 ∉ heap_objs.map Prod.snd ∧ e.2 ∉ ([] : List ℕ)) :=
  C6_cluster_both (fun l => l.map (fun _ => 0)) (fun l => l.map (fun _ => 0))
    [0, 1, 2, 3] [⊥, ⊥, ⊥, ⊥] 2 4 [] [(⊥, 1), (⊥, 0)]
    (by simp only [cluster_both, halfCeil_eq]; decide)

/-- `Acquirer.acquire_initial`, unclustered path: every pool item is paired with the
next randomly drawn utility and streamed through one bounded min-heap of capacity
`init_size`; the selection is `[x for _, x in heap]`. -/
def acquire_initial {α : Type} [LinearOrder α] (xs : List α) (U : List Util)
    (init_size : Nat) : List α :=
  ((xs.zip U).foldl (fun heap p => boundedPush init_size heap (p.2, p.1)) []).map Prod.snd

/-- One run of initial acquisition under the process-wide RNG:
`metrics.set_seed(seed)` at configuration time fixes the stream that
`U = metrics.random(np.empty(self.size))` draws, so the RNG is an oracle from
`(seed, size)` to the drawn utility array. -/
def acquire_initial_run {α : Type} [LinearOrder α] (randoms : Nat → Nat → List Util)
    (seed size init_size : Nat) (xs : List α) : List α :=
  acquire_initial xs (randoms seed size) init_size

/-- C8: with a fixed random seed and fixed inputs, initial acquisition returns the
same selection on repeated invocation — two runs over the same pool whose seeded
RNG streams agree (any two oracles that coincide at the configured seed) yield
identical selections, the rest of the computation being pure. -/
theorem C8_initial_deterministic {α : Type} [LinearOrder α]
    (randoms₁ randoms₂ : Nat → Nat → List Util) (seed size init_size : Nat)
    (xs : List α) (h : randoms₁ seed = randoms₂ seed) :
    acquire_initial_run randoms₁ seed size init_size xs
      = acquire_initial_run randoms₂ seed size init_size xs := by
  rw [acquire_initial_run, acquire_initial_run, h]

theorem C8_initial_deterministic_witness :
    acquire_initial_run (fun s n => if s = 42 then List.replicate n ⊥ else []) 42 2 1
        ([0, 1] : List ℕ)
      = acquire_initial_run (fun _ n => List.replicate n ⊥) 42 2 1 ([0, 1] : List ℕ) :=
  C8_initial_deterministic (fun s n => if s = 42 then List.replicate n ⊥ else [])
    (fun _ n => List.replicate n ⊥) 42 2 1 [0, 1] (by funext n; simp)

/-- `zip(xs, U, cluster_ids)`. -/
def zip3 {α β γ : Type} : List α → List β → List γ → List (α × β × γ)
  | x :: xs, y :: ys, z :: zs => (x, y, z) :: zip3 xs ys zs
  | _, _, _ => []

/-- `math.ceil(self.init_size * cluster_size / U.size)` — the proportional
per-cluster heap capacity of the clustered initial-acquisition path. -/
def propCap (init_size cluster_size size : Nat) : Nat :=
  (⌈((init_size * cluster_size : Nat) : ℚ) / (size : ℚ)⌉).toNat

theorem propCap_eq (init_size cluster_size size : Nat) (hs : 0 < size) :
    propCap init_size cluster_size size
      = (init_size * cluster_size + size - 1) / size := by
  rw [propCap, int_ceil_nat_div _ _ hs, Int.toNat_natCast]

/-- `heap, heap_size = d_cid_heap[cid]` followed by the bounded push, updating the
entry of the matching cluster id in place; `none` is the `KeyError` raised when the
id has no entry. -/
def pushCid {α : Type} [LinearOrder α]
    (d : List (Nat × (List (Util × α) × Nat))) (cid : Nat) (e : Util × α) :
    Option (List (Nat × (List (Util × α) × Nat))) :=
  match d with
  | [] => none
  | (c, (heap, cap)) :: rest =>
    if c = cid then some ((c, (boundedPush cap heap e, cap)) :: rest)
    else
      match pushCid rest cid e with
      | none => none
      | some rest' => some ((c, (heap, cap)) :: rest')

/-- `Acquirer.acquire_initial`, clustered path: one bounded heap per id of
`cluster_sizes`, each with the proportional capacity, filled by streaming
`zip(xs, U, cluster_ids)`; the result is the concatenation of all per-cluster
heaps.  `none` models the `KeyError` on a cluster id absent from
`cluster_sizes`. -/
def acquire_initial_clustered {α : Type} [LinearOrder α] (xs : List α) (U : List Util)
    (cluster_ids : List Nat) (cluster_sizes : List (Nat × Nat))
    (init_size size : Nat) : Option (List α) :=
  let d0 := cluster_sizes.map
    (fun p => (p.1, (([] : List (Util × α)), propCap init_size p.2 size)))
  match (zip3 xs U cluster_ids).foldl
      (fun acc t => acc.bind (fun d => pushCid d t.2.2 (t.2.1, t.1))) (some d0) with
  | none => none
  | some d => some ((d.map (fun p => p.2.1)).flatten.map Prod.snd)

theorem pushCid_eq_map {α : Type} [LinearOrder α] (cid : Nat) (e : Util × α) :
    ∀ (d : List (Nat × (List (Util × α) × Nat))),
      (d.map Prod.fst).Nodup → cid ∈ d.map Prod.fst →
      pushCid d cid e = some (d.map (fun p =>
        if p.1 = cid then (p.1, (boundedPush p.2.2 p.2.1 e, p.2.2)) else p)) := by
  intro d
  induction d with
  | nil => intro _ hc; simp at hc
  | cons hd rest ih =>
    intro hnd hc
    rcases hd with ⟨c, heap, cap⟩
    rw [List.map_cons] at hnd hc
    by_cases hcc : c = cid
    · subst hcc
      have hno : c ∉ rest.map Prod.fst := (List.nodup_cons.1 hnd).1
      have hmap : rest.map (fun p =>
          if p.1 = c then (p.1, (boundedPush p.2.2 p.2.1 e, p.2.2)) else p) = rest := by
        conv_rhs => rw [← List.map_id rest]
        apply List.map_congr_left
        intro p hp
        have hpc : p.1 ≠ c := fun hpc => hno (hpc ▸ List.mem_map_of_mem Prod.fst hp)
        simp [hpc]
      simp only [pushCid, List.map_cons]
      simp [hmap]
    · have hcr : cid ∈ rest.map Prod.fst := by
        rcases (List.mem_cons).1 hc with h1 | h1
        · exact absurd h1.symm hcc
        · exact h1
      have hndr : (rest.map Prod.fst).Nodup := (List.nodup_cons.1 hnd).2
      simp only [pushCid, if_neg hcc, ih hndr hcr, List.map_cons]

theorem foldl_pushCid_lengths {α : Type} [LinearOrder α] :
    ∀ (items : List (α × Util × Nat)) (d : List (Nat × (List (Util × α) × Nat))),
      (d.map Prod.fst).Nodup →
      (∀ t ∈ items, t.2.2 ∈ d.map Prod.fst) →
      (∀ p ∈ d, p.2.1.length ≤ p.2.2) →
      ∃ d', items.foldl
          (fun acc t => acc.bind (fun dd => pushCid dd t.2.2 (t.2.1, t.1))) (some d)
          = some d' ∧
        d'.map (fun p => p.2.1.length) = d.map (fun p =>
          min (p.2.1.length + (items.filter (fun t => t.2.2 = p.1)).length) p.2.2) := by
  intro items
  induction items with
  | nil =>
    intro d _ _ hcap
    refine ⟨d, rfl, ?_⟩
    apply List.map_congr_left
    intro p hp
    have := hcap p hp
    simp
    omega
  | cons t items ih =>
    intro d hnd hmem hcap
    have hct : t.2.2 ∈ d.map Prod.fst := hmem t (List.mem_cons_self _ _)
    rw [List.foldl_cons]
    have hpush := pushCid_eq_map t.2.2 (t.2.1, t.1) d hnd hct
    set g := fun p : Nat × (List (Util × α) × Nat) =>
      if p.1 = t.2.2 then (p.1, (boundedPush p.2.2 p.2.1 (t.2.1, t.1), p.2.2)) else p with hg
    have hkeys : (d.map g).map Prod.fst = d.map Prod.fst := by
      rw [List.map_map]
      apply List.map_congr_left
      intro p hp
      by_cases hpc : p.1 = t.2.2 <;> simp [hg, hpc]
    have hnd' : ((d.map g).map Prod.fst).Nodup := by rw [hkeys]; exact hnd
    have hmem' : ∀ t' ∈ items, t'.2.2 ∈ (d.map g).map Prod.fst := by
      intro t' ht'
      rw [hkeys]
      exact hmem t' (List.mem_cons_of_mem _ ht')
    have hcap' : ∀ p ∈ d.map g, p.2.1.length ≤ p.2.2 := by
      intro p hp
      rcases List.mem_map.1 hp with ⟨q, hq, hqp⟩
      by_cases hqc : q.1 = t.2.2
      · rw [← hqp]
        simp only [hg, if_pos hqc]
        rw [boundedPush_length _ _ _ (hcap q hq)]
        omega
      · rw [← hqp]
        simp only [hg, if_neg hqc]
        exact hcap q hq
    rcases ih (d.map g) hnd' hmem' hcap' with ⟨d', hd', hlen⟩
    refine ⟨d', ?_, ?_⟩
    · have hbind : (Option.bind (some d) (fun dd => pushCid dd t.2.2 (t.2.1, t.1)))
          = some (d.map g) := by
        rw [Option.some_bind, hpush]
      rw [hbind]
      exact hd'
    · rw [hlen, List.map_map]
      apply List.map_congr_left
      intro p hp
      by_cases hpc : p.1 = t.2.2
      · simp only [Function.comp, hg, if_pos hpc]
        rw [boundedPush_length _ _ _ (hcap p hp)]
        rw [List.filter_cons, if_pos (by simp [hpc]), List.length_cons]
        have := hcap p hp
        omega
      · simp only [Function.comp, hg, if_neg hpc]
        rw [List.filter_cons, if_neg (by simp; exact fun h => hpc h.symm)]

theorem zip3_mem_third {α β γ : Type} :
    ∀ (xs : List α) (ys : List β) (zs : List γ) (t : α × β × γ),
      t ∈ zip3 xs ys zs → t.2.2 ∈ zs := by
  intro xs
  induction xs with
  | nil => intro ys zs t ht; simp [zip3] at ht
  | cons x xs ih =>
    intro ys zs t ht
    cases ys with
    | nil => simp [zip3] at ht
    | cons y ys =>
      cases zs with
      | nil => simp [zip3] at ht
      | cons z zs =>
        simp only [zip3] at ht
        rcases (List.mem_cons).1 ht with h1 | h1
        · subst h1; simp
        · exact List.mem_cons_of_mem _ (ih ys zs t h1)

theorem zip3_filter_cid_length {α : Type} (c : Nat) :
    ∀ (xs : List α) (U : List Util) (cids : List Nat),
      xs.length = U.length → U.length = cids.length →
      ((zip3 xs U cids).filter (fun t => t.2.2 = c)).length = cids.count c := by
  intro xs
  induction xs with
  | nil =>
    intro U cids h1 h2
    cases U with
    | nil =>
      cases cids with
      | nil => simp [zip3]
      | cons z zs => simp at h2
    | cons u us => simp at h1
  | cons x xs ih =>
    intro U cids h1 h2
    cases U with
    | nil => simp at h1
    | cons u us =>
      cases cids with
      | nil => simp at h2
      | cons z zs =>
        simp only [zip3, List.filter_cons]
        by_cases hz : z = c
        · rw [if_pos (by simp [hz]), List.length_cons,
            ih us zs (by simpa using h1) (by simpa using h2)]
          simp [List.count_cons, hz]
        · rw [if_neg (by simp [hz]), ih us zs (by simpa using h1) (by simpa using h2)]
          simp [List.count_cons, hz]

/-- C10 (implicit): in the clustered path of `acquire_initial`, the number of items
returned is the sum over the configured cluster ids of
`min(#pool items with that id, ceil(init_size * cluster_size / pool_size))`; the
independent per-cluster ceilings make this total able to strictly exceed
`init_size` (here: `init_size = 1` but 4 items are returned), so the clustered path
does not obey the exact-`init_size` count of the unclustered path. -/
theorem C10_initial_clustered {α : Type} [LinearOrder α] :
    (∀ (xs : List α) (U : List Util) (cluster_ids : List Nat)
        (cluster_sizes : List (Nat × Nat)) (init_size size : Nat),
      xs.length = U.length → U.length = cluster_ids.length →
      (cluster_sizes.map Prod.fst).Nodup →
      (∀ t ∈ zip3 xs U cluster_ids, t.2.2 ∈ cluster_sizes.map Prod.fst) →
      ∃ res, acquire_initial_clustered xs U cluster_ids cluster_sizes init_size size
          = some res ∧
        res.length = (cluster_sizes.map (fun p =>
          min (cluster_ids.count p.1) (propCap init_size p.2 size))).sum) ∧
    (∃ res, acquire_initial_clustered ([10, 20, 30, 40] : List ℕ) [⊥, ⊥, ⊥, ⊥]
        [0, 1, 2, 3] [(0, 1), (1, 1), (2, 1), (3, 1)] 1 4 = some res ∧
      1 < res.length) := by
  constructor
  · intro xs U cluster_ids cluster_sizes init_size size h1 h2 hnd hcov
    set d0 := cluster_sizes.map
      (fun p => (p.1, (([] : List (Util × α)), propCap init_size p.2 size))) with hd0
    have hd0keys : d0.map Prod.fst = cluster_sizes.map Prod.fst := by
      rw [hd0, List.map_map]
      apply List.map_congr_left
      intro p _
      rfl
    have hnd0 : (d0.map Prod.fst).Nodup := by rw [hd0keys]; exact hnd
    have hmem0 : ∀ t ∈ zip3 xs U cluster_ids, t.2.2 ∈ d0.map Prod.fst := by
      intro t ht
      rw [hd0keys]
      exact hcov t ht
    have hcap0 : ∀ p ∈ d0, p.2.1.length ≤ p.2.2 := by
      intro p hp
      rcases List.mem_map.1 hp with ⟨q, _, hqp⟩
      rw [← hqp]
      simp
    rcases foldl_pushCid_lengths (zip3 xs U cluster_ids) d0 hnd0 hmem0 hcap0
      with ⟨d', hfold, hlen⟩
    refine ⟨(d'.map (fun p => p.2.1)).flatten.map Prod.snd, ?_, ?_⟩
    · rw [acquire_initial_clustered]
      rw [← hd0, hfold]
    · rw [List.length_map, List.length_flatten, List.map_map]
      have hcomp : d'.map (List.length ∘ fun p => p.2.1) = d'.map (fun p => p.2.1.length) :=
        rfl
      rw [hcomp, hlen, hd0, List.map_map]
      congr 1
      apply List.map_congr_left
      intro p _
      simp only [Function.comp]
      rw [zip3_filter_cid_length p.1 xs U cluster_ids h1 h2]
      simp
  · have hcap : propCap 1 1 4 = 1 := by
      rw [propCap_eq 1 1 4 (by norm_num)]
    have hev : acquire_initial_clustered ([10, 20, 30, 40] : List ℕ) [⊥, ⊥, ⊥, ⊥]
        [0, 1, 2, 3] [(0, 1), (1, 1), (2, 1), (3, 1)] 1 4
        = some [10, 20, 30, 40] := by
      simp only [acquire_initial_clustered, List.map_cons, List.map_nil, hcap]
      decide
    exact ⟨[10, 20, 30, 40], hev, by norm_num⟩

theorem C10_initial_clustered_witness :
    ∃ res, acquire_initial_clustered ([10, 20, 30, 40] : List ℕ) [⊥, ⊥, ⊥, ⊥]
        [0, 1, 2, 3] [(0, 1), (1, 1), (2, 1), (3, 1)] 1 4 = some res ∧
      res.length = (([(0, 1), (1, 1), (2, 1), (3, 1)] : List (Nat × Nat)).map (fun p =>
        min (([0, 1, 2, 3] : List Nat).count p.1) (propCap 1 p.2 4))).sum :=
  C10_initial_clustered.1 [10, 20, 30, 40] [⊥, ⊥, ⊥, ⊥] [0, 1, 2, 3]
    [(0, 1), (1, 1), (2, 1), (3, 1)] 1 4 (by decide) (by decide) (by decide) (by decide)

/-- A Python value flowing into `_calc_decay`'s `local_max` parameter: a float, or
the `(score, item)` tuple that `max(heap, key=...)` actually returns. -/
inductive PyV (α : Type) : Type where
  | fl : PF → PyV α
  | tup : PF × α → PyV α

/-- IEEE float subtraction on `PF` (NaN propagates; `inf - inf = nan`). -/
def pfSub : PF → PF → PF
  | .nan, _ => .nan
  | _, .nan => .nan
  | .pinf, .pinf => .nan
  | .pinf, _ => .pinf
  | .ninf, .ninf => .nan
  | .ninf, _ => .ninf
  | .val _, .pinf => .ninf
  | .val _, .ninf => .pinf
  | .val a, .val b => .val (a - b)

/-- Python's `global_max - local_max`: subtracting a tuple from a float raises
`TypeError` (floats only subtract from numbers). -/
def pySub {α : Type} : PF → PyV α → Except String PF
  | g, .fl u => .ok (pfSub g u)
  | _, .tup _ => .error "TypeError"

/-- IEEE float negation. -/
def pfNeg : PF → PF
  | .nan => .nan
  | .pinf => .ninf
  | .ninf => .pinf
  | .val q => .val (-q)

/-- Python float division; dividing by `0.0` raises `ZeroDivisionError`. -/
def pfDiv : PF → PF → Except String PF
  | x, .val q =>
    if q = 0 then .error "ZeroDivisionError"
    else .ok (match x with
      | .nan => .nan
      | .pinf => if 0 < q then .pinf else .ninf
      | .ninf => if 0 < q then .ninf else .pinf
      | .val a => .val (a / q))
  | .nan, _ => .ok .nan
  | _, .nan => .ok .nan
  | .pinf, .pinf => .ok .nan
  | .pinf, .ninf => .ok .nan
  | .ninf, .pinf => .ok .nan
  | .ninf, .ninf => .ok .nan
  | .val _, .pinf => .ok (.val 0)
  | .val _, .ninf => .ok (.val 0)

/-- `math.exp` on floats; the finite case consults the oracle `expO`, since exact
exponentials are outside the rational idealization. -/
def pfExp (expO : ℚ → ℚ) : PF → PF
  | .nan => .nan
  | .pinf => .pinf
  | .ninf => .val 0
  | .val q => .val (expO q)

/-- Float-times-int `f * heap_size`. -/
def pfMulNat : PF → Nat → PF
  | .nan, _ => .nan
  | .pinf, n => if n = 0 then .nan else .pinf
  | .ninf, n => if n = 0 then .nan else .ninf
  | .val q, n => .val (q * n)

/-- `math.ceil` on a float: `OverflowError` on the infinities, `ValueError` on
NaN. -/
def pfCeil : PF → Except String Int
  | .nan => .error "ValueError"
  | .pinf => .error "OverflowError"
  | .ninf => .error "OverflowError"
  | .val q => .ok ⌈q⌉

/-- `Acquirer._calc_temp`: `temp_i * math.exp(-t/0.75) + temp_f` (finite floats
idealized as rationals, `math.exp` as the oracle `expO`). -/
def calc_temp (expO : ℚ → ℚ) (t temp_i temp_f : ℚ) : ℚ :=
  temp_i * expO (-(t / (3 / 4))) + temp_f

/-- `Acquirer._calc_decay`: `math.exp(-(global_max - local_max)/temp)`.  The
`local_max` parameter is annotated `float` in the source, but `_scale_heaps`
passes it the `(score, item)` tuple `max` returned, so the subtraction raises
before any decay factor exists. -/
def calc_decay {α : Type} (expO : ℚ → ℚ) (global_max : PF) (local_max : PyV α)
    (temp : PF) : Except String PF := do
  let d ← pySub global_max local_max
  let q ← pfDiv (pfNeg d) temp
  pure (pfExp expO q)

/-- `-1 if math.isinf(yx[0]) else yx[0]` — the key used to search the local max. -/
def infKey : PF → PF
  | .pinf => .val (-1)
  | .ninf => .val (-1)
  | u => u

/-- Python float `>` (false whenever NaN is involved). -/
def pfGt : PF → PF → Bool
  | .nan, _ => false
  | _, .nan => false
  | .pinf, .pinf => false
  | .pinf, _ => true
  | .ninf, _ => false
  | .val _, .pinf => false
  | .val _, .ninf => true
  | .val a, .val b => decide (b < a)

/-- `max(heap, key=lambda yx: -1 if math.isinf(yx[0]) else yx[0])`: the first entry
whose key no later entry strictly exceeds — and it is the ENTRY (a tuple) that is
returned, not its score. -/
def maxByKey {α : Type} (e : PF × α) (l : List (PF × α)) : PF × α :=
  l.foldl (fun m x => if pfGt (infKey x.1) (infKey m.1) then x else m) e

instance {α : Type} [LinearOrder α] :
    DecidableRel (fun a b : PF × α => pfGt a.1 b.1 = true ∨ (a.1 = b.1 ∧ b.2 ≤ a.2)) :=
  fun a b => inferInstanceAs (Decidable (pfGt a.1 b.1 = true ∨ (a.1 = b.1 ∧ b.2 ≤ a.2)))

/-- `heapq.nlargest(n, heap)`: the `n` largest entries under the tuple order,
largest first. -/
def nlargest {α : Type} [LinearOrder α] (n : Nat) (heap : List (PF × α)) :
    List (PF × α) :=
  (heap.insertionSort (fun a b => pfGt a.1 b.1 = true ∨ (a.1 = b.1 ∧ b.2 ≤ a.2))).take n

/-- `Acquirer._scale_heaps`, as written: compute the temperature, then for each
non-empty cluster heap take `pred_local_max = max(heap, key=...)` — the whole
`(score, item)` entry — hand it to `_calc_decay`, shrink the heap to
`ceil(f * heap_size)` of its largest entries and store the new size.  All
per-entry computation runs in `Except String` so the `TypeError` that
`global_max - pred_local_max` raises propagates out of the call. -/
def scale_heaps {α : Type} [LinearOrder α] (expO : ℚ → ℚ)
    (d_cid_heap : List (Nat × (List (PF × α) × Nat))) (pred_global_max : PF)
    (t temp_i temp_f : ℚ) : Except String (List (Nat × (List (PF × α) × Nat))) :=
  let temp := calc_temp expO t temp_i temp_f
  d_cid_heap.mapM (fun p =>
    match p with
    | (cid, (heap, heap_size)) =>
      match heap with
      | [] => .ok (cid, (heap, heap_size))
      | e :: hrest => do
        let pred_local_max := maxByKey e hrest
        let f ← calc_decay expO pred_global_max (.tup pred_local_max) (.val temp)
        let nhs ← pfCeil (pfMulNat f heap_size)
        pure (cid, (nlargest nhs.toNat heap, nhs.toNat)))

/-- C9: the claim describes `_scale_heaps`' documented intent (docstring and the
`local_max: float` annotation of `_calc_decay`), but the code cannot perform it:
for every map containing a non-empty heap — here `{0: ([(1.0, item)], 1)}` with
`pred_global_max = 2.0`, `t = 0`, `temp_i = temp_f = 1.0` — `pred_local_max` is
the `(score, item)` tuple returned by `max(heap, key=...)`, and `_calc_decay`'s
`global_max - local_max` is float-minus-tuple, raising `TypeError` before any
decay factor or heap shrink happens, whatever `math.exp` would return. -/
theorem C9_scale_heaps_raises :
    ∀ expO : ℚ → ℚ,
      scale_heaps expO [(0, ([(PF.val 1, (0 : ℕ))], 1))] (PF.val 2) 0 1 1
        = .error "TypeError" := by
  intro expO
  rfl

end Molpal
